import Mathlib

/-!
Verification of the `caching` library (in-memory and Redis memoization decorators)
against its natural-language specification.

The Python sources are shallowly embedded: pure functions become Lean functions,
the mutable in-process store (`MemoryStorage._CACHE`) becomes an explicit
association list threaded through the embedded operations, wall/monotonic clock
readings (`time.monotonic()` / `time.time()`) become explicit rational-number
arguments, and the thread interleavings of the decorator's double-checked
locking pattern become a small-step transition relation.
-/

namespace Caching

/-- Clock readings (`time.monotonic()` / `time.time()`), modelled as rationals. -/
abbrev Time := ℚ

/-- Cached result values (`result: Any` in the source), modelled as integers. -/
abbrev Val := ℤ

/-- Python exception payloads, modelled by their message. -/
abbrev Exn := String

/-- `CacheEntry` from `caching/storage/memory_storage.py` (lines 12-31): a dataclass
holding the cached `result`, the optional `ttl`, and the derived timestamps
`cached_at` and `expires_at`. -/
structure CacheEntry where
  result : Val
  ttl : Option ℚ
  cached_at : Time
  expires_at : Time
deriving DecidableEq

/-- `CacheEntry.__post_init__`: `cached_at = self.time()` and
`expires_at = 0 if self.ttl is None else self.cached_at + self.ttl`.
The clock reading at construction is passed explicitly as `now`. -/
def CacheEntry.make (result : Val) (ttl : Option ℚ) (now : Time) : CacheEntry :=
  ⟨result, ttl, now, match ttl with | none => 0 | some t => now + t⟩

/-- `CacheEntry.is_expired`: `False` when `ttl is None`, otherwise
`self.time() > self.expires_at`; the current clock reading is passed as `now`. -/
def CacheEntry.is_expired (e : CacheEntry) (now : Time) : Bool :=
  match e.ttl with
  | none => false
  | some _ => decide (now > e.expires_at)

/-- `MemoryStorage._CACHE`: a mapping keyed by `(function_id, cache_key)`,
modelled as an association list (writes replace the previous binding). -/
abbrev MemStore := List ((String × String) × CacheEntry)

/-- `_CACHE.get((function_id, cache_key))`. -/
def lookupStore (s : MemStore) (function_id cache_key : String) : Option CacheEntry :=
  (s.find? (fun p => p.1 == (function_id, cache_key))).map Prod.snd

namespace MemoryStorage

/-- `MemoryStorage.set` (memory_storage.py lines 50-52):
`cls._CACHE[function_id, cache_key] = CacheEntry(result, ttl)`. -/
def set (s : MemStore) (function_id cache_key : String) (result : Val)
    (ttl : Option ℚ) (now : Time) : MemStore :=
  ((function_id, cache_key), CacheEntry.make result ttl now)
    :: s.filter (fun p => !(p.1 == (function_id, cache_key)))

/-- `MemoryStorage.get` (memory_storage.py lines 54-61): returns `None` when
`skip_cache` is set; otherwise returns the stored entry unless it is expired. -/
def get (s : MemStore) (function_id cache_key : String) (skip_cache : Bool)
    (now : Time) : Option CacheEntry :=
  if skip_cache then none
  else
    match lookupStore s function_id cache_key with
    | some entry => if !(entry.is_expired now) then some entry else none
    | none => none

/-- `MemoryStorage.is_expired` (memory_storage.py lines 63-67). -/
def isEntryExpired (s : MemStore) (function_id cache_key : String) (now : Time) : Bool :=
  match lookupStore s function_id cache_key with
  | some entry => entry.is_expired now
  | none => true

/-- One scan of the sweeper loop `MemoryStorage.clear_expired_cached_items`
(memory_storage.py lines 39-48): delete every entry whose `is_expired()` holds. -/
def clearExpiredPass (s : MemStore) (now : Time) : MemStore :=
  s.filter (fun p => !(p.2.is_expired now))

end MemoryStorage

/-- Python `kwargs`: an association list from keyword names to values; the
reserved `skip_cache` flag is a value whose Python truthiness is `value ≠ 0`. -/
abbrev Kwargs := List (String × Int)

/-- `kwargs.pop("skip_cache", False)` in `sync_wrapper` / `async_wrapper`
(line 52 of `caching/_sync/__init__.py` and `caching/_async/__init__.py`):
returns the truthiness of the popped value and the remaining keyword arguments. -/
def popSkipCache (kwargs : Kwargs) : Bool × Kwargs :=
  match kwargs.find? (fun p => p.1 == "skip_cache") with
  | some p => (p.2 != 0, kwargs.filter (fun q => !(q.1 == "skip_cache")))
  | none => (false, kwargs)

/-- The body of `sync_wrapper` (`caching/_sync/__init__.py` lines 50-69) for a single
sequential call, with the store state and the clock passed explicitly; `f` is the
outcome of `function(*args, **kwargs)` (`.error` when the computation raises).
`async_wrapper` (`caching/_async/__init__.py` lines 50-69) has the same body modulo
`await`, so this embedding covers both.  The two `backend.get` calls are the
fast-path lookup and the under-lock re-check of the double-checked pattern; in a
single-caller run no interleaving can occur between them. -/
def sync_wrapper_run (ttl : ℚ) (never_die : Bool) (function_id cache_key : String)
    (skip_cache : Bool) (f : Except Exn Val) (s : MemStore) (now : Time) :
    Except Exn Val × MemStore :=
  match MemoryStorage.get s function_id cache_key skip_cache now with
  | some entry => (.ok entry.result, s)
  | none =>
    match MemoryStorage.get s function_id cache_key skip_cache now with
    | some entry => (.ok entry.result, s)
    | none =>
      match f with
      | .error exn => (.error exn, s)
      | .ok result =>
        (.ok result,
          MemoryStorage.set s function_id cache_key result
            (if never_die then none else some ttl) now)

/-- The argument-handling prologue of `sync_wrapper` / `async_wrapper` followed by
the body: pop `skip_cache` from the keyword arguments, derive the cache key from
the remaining arguments (`ckf` abstracts
`CacheBucket.create_cache_key(function_signature, cache_key_func, ignore_fields, args, kwargs)`
as a function of the post-pop kwargs), then run the cached call. -/
def sync_wrapper_call (ttl : ℚ) (never_die : Bool) (function_id : String)
    (ckf : Kwargs → String) (kwargs : Kwargs) (f : Except Exn Val)
    (s : MemStore) (now : Time) : Except Exn Val × MemStore :=
  let popped := popSkipCache kwargs
  sync_wrapper_run ttl never_die function_id (ckf popped.2) popped.1 f s now

/-- `_MAX_BACKOFF` (`caching/features/never_die.py` line 22). -/
def MAX_BACKOFF : ℚ := 10

/-- `_BACKOFF_MULTIPLIER` (`caching/features/never_die.py` line 23): `1.25`. -/
def BACKOFF_MULTIPLIER : ℚ := 5 / 4

/-- The refresh bookkeeping of `NeverDieCacheEntry`
(`caching/features/never_die.py`): the decorator-level `ttl`, the private
`_backoff` factor and `_expires_at` deadline set in `__post_init__`, `reset`
and `revive`.  The function/argument identity fields are irrelevant to the
backoff arithmetic and are carried elsewhere in this embedding. -/
structure NeverDieCacheEntry where
  ttl : ℚ
  backoff : ℚ
  expires_at : Time
deriving DecidableEq

/-- `NeverDieCacheEntry.__post_init__`: `_backoff = 1`,
`_expires_at = time.monotonic() + self.ttl`. -/
def NeverDieCacheEntry.init (ttl : ℚ) (now : Time) : NeverDieCacheEntry :=
  ⟨ttl, 1, now + ttl⟩

/-- `NeverDieCacheEntry.is_expired`: `time.monotonic() > self._expires_at`. -/
def NeverDieCacheEntry.is_expired (e : NeverDieCacheEntry) (now : Time) : Bool :=
  decide (now > e.expires_at)

/-- `NeverDieCacheEntry.reset` (never_die.py lines 68-70): on a successful
refresh, `_backoff = 1` and `_expires_at = time.monotonic() + self.ttl`. -/
def NeverDieCacheEntry.reset (e : NeverDieCacheEntry) (now : Time) : NeverDieCacheEntry :=
  ⟨e.ttl, 1, now + e.ttl⟩

/-- `NeverDieCacheEntry.revive` (never_die.py lines 72-74): on a failed refresh,
`_backoff = min(_backoff * _BACKOFF_MULTIPLIER, _MAX_BACKOFF)` and
`_expires_at = time.monotonic() + self.ttl * self._backoff`. -/
def NeverDieCacheEntry.revive (e : NeverDieCacheEntry) (now : Time) : NeverDieCacheEntry :=
  let b := min (e.backoff * BACKOFF_MULTIPLIER) MAX_BACKOFF
  ⟨e.ttl, b, now + e.ttl * b⟩

/-- A sequence of consecutive failed refreshes: `revive` applied at each of the
given clock readings in turn. -/
def NeverDieCacheEntry.reviveIter (e : NeverDieCacheEntry) : List Time → NeverDieCacheEntry
  | [] => e
  | t :: ts => (e.revive t).reviveIter ts

/-- One background refresh `_run_sync_function_and_cache` (never_die.py lines 77-89),
run under the entry's lock; `f` is the outcome of `entry.function(*args, **kwargs)`.
On success the result is stored with `ttl=None` and the entry `reset`; on any
exception the store is untouched and the entry `revive`d.
(`_run_async_function_and_cache`, lines 92-104, is identical modulo `await`.) -/
def run_sync_function_and_cache (e : NeverDieCacheEntry) (function_id cache_key : String)
    (f : Except Exn Val) (s : MemStore) (now : Time) : NeverDieCacheEntry × MemStore :=
  match f with
  | .ok result => (e.reset now, MemoryStorage.set s function_id cache_key result none now)
  | .error _ => (e.revive now, s)

/-- Values handed to `RedisStorage` for storage; `unpicklable` marks results for
which `pickle.dumps` raises (e.g. a lock, socket or closure), identified by the
offending object's id. -/
inductive RVal where
  | picklable (v : Int)
  | unpicklable (objId : Nat)
deriving DecidableEq

/-- `RedisCacheEntry` (`caching/storage/redis_storage.py` lines 11-32): same shape
as the in-process `CacheEntry` but stamped with wall-clock `time.time()`. -/
structure RedisCacheEntry where
  result : RVal
  ttl : Option ℚ
  cached_at : Time
  expires_at : Time
deriving DecidableEq

/-- `RedisCacheEntry.__post_init__`. -/
def RedisCacheEntry.make (result : RVal) (ttl : Option ℚ) (now : Time) : RedisCacheEntry :=
  ⟨result, ttl, now, match ttl with | none => 0 | some t => now + t⟩

/-- `RedisCacheEntry.is_expired`. -/
def RedisCacheEntry.is_expired (e : RedisCacheEntry) (now : Time) : Bool :=
  match e.ttl with
  | none => false
  | some _ => decide (now > e.expires_at)

/-- The `on_error` policy of the Redis backend (`caching/redis/config.py`). -/
inductive OnError where
  | silent
  | raiseMode
deriving DecidableEq

/-- `RedisStorage._serialize` (redis_storage.py lines 44-53):
`pickle.dumps(entry, ...)`, converting a pickling failure into a raised
`TypeError`.  The byte payload is modelled by the entry itself (pickling is
injective on entries whose result pickles). -/
def RedisStorage.serialize (e : RedisCacheEntry) : Except Exn RedisCacheEntry :=
  match e.result with
  | .picklable _ => .ok e
  | .unpicklable _ => .error "TypeError: Failed to serialize cache entry"

/-- Python `int(t)` on a nonnegative float/rational: truncation. -/
def pyIntTrunc (t : ℚ) : ℤ := if 0 ≤ t then ⌊t⌋ else -⌊-t⌋

/-- The Redis command issued by `RedisStorage.set` / `aset`:
`setex(key, int(ttl) + 1, data)` for a finite TTL, plain `set(key, data)` for
`ttl is None`. -/
inductive RedisWrite where
  | setex (key : String) (seconds : ℤ) (data : RedisCacheEntry)
  | setPlain (key : String) (data : RedisCacheEntry)
deriving DecidableEq

/-- `RedisStorage.set` (redis_storage.py lines 80-98): build the entry, serialize
it (outside the `try`, so a serialization failure propagates under every
`on_error` policy and no Redis command is issued), then issue the write; `io` is
the outcome of the Redis client call, whose failure is swallowed in `silent`
mode and propagated in `raise` mode.  Returns the call's outcome together with
the Redis command that was attempted (`none` when no write was attempted).
`RedisStorage.aset` (lines 145-163) has the same body modulo `await` and is
embedded by `RedisStorage.aset` below. -/
def RedisStorage.set (onError : OnError) (pre function_id cache_key : String)
    (result : RVal) (ttl : Option ℚ) (io : Except Exn Unit) (now : Time) :
    Except Exn Unit × Option RedisWrite :=
  let key := pre ++ ":" ++ function_id ++ ":" ++ cache_key
  let entry := RedisCacheEntry.make result ttl now
  match RedisStorage.serialize entry with
  | .error exn => (.error exn, none)
  | .ok data =>
    let req := match ttl with
      | none => RedisWrite.setPlain key data
      | some t => RedisWrite.setex key (pyIntTrunc t + 1) data
    match io with
    | .ok _ => (.ok (), some req)
    | .error exn =>
      match onError with
      | .raiseMode => (.error exn, some req)
      | .silent => (.ok (), some req)

/-- `RedisStorage.aset` (redis_storage.py lines 145-163): the `async` twin of
`RedisStorage.set`, with an identical body modulo `await`. -/
def RedisStorage.aset (onError : OnError) (pre function_id cache_key : String)
    (result : RVal) (ttl : Option ℚ) (io : Except Exn Unit) (now : Time) :
    Except Exn Unit × Option RedisWrite :=
  let key := pre ++ ":" ++ function_id ++ ":" ++ cache_key
  let entry := RedisCacheEntry.make result ttl now
  match RedisStorage.serialize entry with
  | .error exn => (.error exn, none)
  | .ok data =>
    let req := match ttl with
      | none => RedisWrite.setPlain key data
      | some t => RedisWrite.setex key (pyIntTrunc t + 1) data
    match io with
    | .ok _ => (.ok (), some req)
    | .error exn =>
      match onError with
      | .raiseMode => (.error exn, some req)
      | .silent => (.ok (), some req)

/-- Modelled from the spec: the distributed-lock heartbeat.  The heartbeat
manager (`_SyncHeartbeatManager` / `_AsyncHeartbeatManager`, referenced by
`tests/redis/test_redis_lock_heartbeat.py`) is not among the sources under
review; `caching/redis/lock.py` only acquires the `redis` lock with
`timeout=config.lock_timeout`.  Per the spec, once the lock is acquired a
heartbeat task re-extends the lease at a sub-interval of the timeout (roughly
`timeout / 2`), resetting its remaining TTL to the full `timeout`, for as long
as the critical section runs.  `heartbeatInterval` is that sub-interval. -/
def heartbeatInterval (timeout : ℚ) : ℚ := timeout / 2

/-- Modelled from the spec: the clock reading of the most recent lease
extension at or before time `t` into the critical section (extensions fire at
`0, i, 2i, ...` where `i` is the heartbeat interval; acquisition itself is the
extension at `0`). -/
def lastExtension (timeout t : ℚ) : ℚ :=
  heartbeatInterval timeout * ⌊t / heartbeatInterval timeout⌋

/-- Modelled from the spec: the lease's remaining TTL at time `t` into the
critical section — each extension resets the TTL to `timeout`, and it then
decreases linearly until the next extension. -/
def leaseRemaining (timeout t : ℚ) : ℚ := timeout - (t - lastExtension timeout t)

/-- Modelled from the spec: a second caller for the same `(functionID, digest)`
can take the lock away from a live holder only if the lease has lapsed, i.e.
its remaining TTL has reached zero. -/
def secondCallerCanAcquire (timeout t : ℚ) : Prop := leaseRemaining timeout t ≤ 0

namespace Stampede

/-- The control state of one concurrent caller inside `sync_wrapper` /
`async_wrapper` for a fixed `(functionID, digest)`, following the source line
by line: the fast-path `backend.get` (line 58), waiting on
`lock_context(function_id, cache_key)` (line 61), the under-lock re-check
(line 62), running `function(*args, **kwargs)` (line 65), the `backend.set`
(line 66), exiting the `with` block (releasing the lock), and returning. -/
inductive CallerSt where
  | start
  | waitLock
  | recheck
  | computing
  | storing (v : ℤ)
  | releasing (v : ℤ)
  | done (v : ℤ)
deriving DecidableEq

/-- The shared state of `N` concurrent callers of the same wrapped function with
identical `(functionID, digest)`, no `never_die` flag and `skip_cache=False`:
the store binding for that one key (fresh entries do not expire during the
cache-miss episode), the keyed lock (`threading.Lock` / `asyncio.Lock` /
Redis lease — a mutex either free or held by one caller), each caller's control
state, and the number of times the wrapped computation has been started. -/
structure Sys (N : ℕ) where
  store : Option ℤ
  lock : Option (Fin N)
  callers : Fin N → CallerSt
  execCount : ℕ

/-- The initial state of a cache-miss episode: no prior cache entry, lock free,
every caller about to enter the wrapper, no execution yet. -/
def init (N : ℕ) : Sys N :=
  ⟨none, none, fun _ => .start, 0⟩

/-- One interleaved step of some caller `i`; `compVal k` is the value produced
by the `k`-th execution of the wrapped computation. -/
inductive Step (compVal : ℕ → ℤ) {N : ℕ} : Sys N → Sys N → Prop where
  | fastHit (s : Sys N) (i : Fin N) (v : ℤ) :
      s.callers i = .start → s.store = some v →
      Step compVal s ⟨s.store, s.lock, Function.update s.callers i (.done v), s.execCount⟩
  | fastMiss (s : Sys N) (i : Fin N) :
      s.callers i = .start → s.store = none →
      Step compVal s ⟨s.store, s.lock, Function.update s.callers i .waitLock, s.execCount⟩
  | acquire (s : Sys N) (i : Fin N) :
      s.callers i = .waitLock → s.lock = none →
      Step compVal s ⟨s.store, some i, Function.update s.callers i .recheck, s.execCount⟩
  | recheckHit (s : Sys N) (i : Fin N) (v : ℤ) :
      s.callers i = .recheck → s.store = some v →
      Step compVal s ⟨s.store, s.lock, Function.update s.callers i (.releasing v), s.execCount⟩
  | recheckMiss (s : Sys N) (i : Fin N) :
      s.callers i = .recheck → s.store = none →
      Step compVal s ⟨s.store, s.lock, Function.update s.callers i .computing, s.execCount⟩
  | execute (s : Sys N) (i : Fin N) :
      s.callers i = .computing →
      Step compVal s
        ⟨s.store, s.lock, Function.update s.callers i (.storing (compVal s.execCount)),
          s.execCount + 1⟩
  | storeWrite (s : Sys N) (i : Fin N) (v : ℤ) :
      s.callers i = .storing v →
      Step compVal s ⟨some v, s.lock, Function.update s.callers i (.releasing v), s.execCount⟩
  | release (s : Sys N) (i : Fin N) (v : ℤ) :
      s.callers i = .releasing v →
      Step compVal s ⟨s.store, none, Function.update s.callers i (.done v), s.execCount⟩

/-- The states reachable by interleaving the callers from the start of a
cache-miss episode. -/
def Reachable (compVal : ℕ → ℤ) {N : ℕ} (s : Sys N) : Prop :=
  Relation.ReflTransGen (Step compVal) (init N) s

/-- States in which a caller is inside the `with lock_context(...)` block. -/
def holdsLock : CallerSt → Prop
  | .recheck => True
  | .computing => True
  | .storing _ => True
  | .releasing _ => True
  | _ => False

/-- The inductive invariant of the double-checked pattern. -/
structure Inv (compVal : ℕ → ℤ) {N : ℕ} (s : Sys N) : Prop where
  lockOwner : ∀ i : Fin N, holdsLock (s.callers i) → s.lock = some i
  storeVal : ∀ v : ℤ, s.store = some v → v = compVal 0 ∧ 1 ≤ s.execCount
  execLe : s.execCount ≤ 1
  execWitness : 1 ≤ s.execCount →
    s.store ≠ none ∨ ∃ (j : Fin N) (v : ℤ), s.callers j = .storing v
  stComputing : ∀ i : Fin N, s.callers i = .computing → s.store = none ∧ s.execCount = 0
  stStoring : ∀ (i : Fin N) (v : ℤ), s.callers i = .storing v →
    v = compVal 0 ∧ s.store = none ∧ s.execCount = 1
  stReleasing : ∀ (i : Fin N) (v : ℤ), s.callers i = .releasing v →
    v = compVal 0 ∧ s.store = some (compVal 0)
  stDone : ∀ (i : Fin N) (v : ℤ), s.callers i = .done v → v = compVal 0

end Stampede

namespace Fingerprint

/-- CPython's hash modulus for `int`: `2 ** 61 - 1`. -/
def pyHashModulus : ℤ := 2 ^ 61 - 1

/-- CPython `hash(n)` for an `int` `n`: reduction modulo `2 ** 61 - 1`,
preserving sign, with `-1` mapped to `-2`. -/
def pyHashInt (n : ℤ) : ℤ :=
  let h := if 0 ≤ n then n % pyHashModulus else -((-n) % pyHashModulus)
  if h = -1 then -2 else h

/-- Python argument values reachable by `_process_isolated_fingerprint`
(`cachify/utils/arguments.py` lines 13-45), with explicit object identities
(`id()` values): `int` objects (hashable), `list` objects (unhashable ordered
`Sequence`s), `set` objects over `int` elements carried in iteration order as
`(id, value)` pairs (unhashable unordered `Set`s), and unhashable non-container
objects (which fall through to the identity-hash branch). -/
inductive PyVal where
  | intV (objId : ℕ) (n : ℤ)
  | listV (objId : ℕ) (elems : List PyVal)
  | setV (objId : ℕ) (elems : List (ℕ × ℤ))
  | objV (objId : ℕ)

/-- `id(current)`. -/
def PyVal.objId : PyVal → ℕ
  | .intV i _ => i
  | .listV i _ => i
  | .setV i _ => i
  | .objV i => i

mutual

/-- Node count of a value, used as the traversal's termination measure. -/
def PyVal.size : PyVal → ℕ
  | .intV _ _ => 1
  | .objV _ => 1
  | .setV _ elems => 1 + elems.length
  | .listV _ elems => 1 + PyVal.sizeList elems

/-- Total node count of a list of values. -/
def PyVal.sizeList : List PyVal → ℕ
  | [] => 0
  | v :: vs => PyVal.size v + PyVal.sizeList vs

end

mutual

/-- All object ids occurring in a value (the ids the traversal can ever meet). -/
def PyVal.ids : PyVal → List ℕ
  | .intV i _ => [i]
  | .objV i => [i]
  | .setV i elems => i :: elems.map Prod.fst
  | .listV i elems => i :: PyVal.idsList elems

/-- All object ids occurring in a list of values. -/
def PyVal.idsList : List PyVal → List ℕ
  | [] => []
  | v :: vs => PyVal.ids v ++ PyVal.idsList vs

end

/-- The comparison used by Python's `sorted` on the `int` members of a set:
order by value. -/
abbrev leVal (a b : ℕ × ℤ) : Prop := a.2 ≤ b.2

instance : DecidableRel leVal := fun a b => inferInstanceAs (Decidable (a.2 ≤ b.2))

instance : IsTotal (ℕ × ℤ) leVal := ⟨fun a b => le_total a.2 b.2⟩

instance : IsTrans (ℕ × ℤ) leVal := ⟨fun _ _ _ h1 h2 => le_trans h1 h2⟩

/-- `sorted(current)` on a set of `int` objects: the elements in ascending
value order (a sort; Python's is a stable mergesort, extensionally equal on
the duplicate-free element values of a set). -/
def sortSetElems (elems : List (ℕ × ℤ)) : List (ℕ × ℤ) :=
  List.insertionSort leVal elems

/-- The worklist loop of `_process_isolated_fingerprint` (arguments.py lines
18-44).  `stack` is the Python `stack` with its top at the head (Python pops
from the end, so `stack.extend(xs)` is modelled by pushing `xs.reverse`);
`seen` is the visited-identity set; `acc` is the sequence of 8-byte blocks fed
to `result.update` so far — `hash(x).to_bytes(8, "big", signed=True)` for a
hashable value and `current_id.to_bytes(8, "big", signed=True)` for the
identity fallback.  The final `blake2b` hex digest is a function of exactly
this block stream, so the stream itself stands for the digest. -/
def runFingerprint : List PyVal → List ℕ → List ℤ → List ℤ × List ℕ
  | [], seen, acc => (acc, seen)
  | .intV i n :: rest, seen, acc =>
    if i ∈ seen then runFingerprint rest seen acc
    else runFingerprint rest (i :: seen) (acc ++ [pyHashInt n])
  | .listV i elems :: rest, seen, acc =>
    if i ∈ seen then runFingerprint rest seen acc
    else runFingerprint (elems.reverse ++ rest) (i :: seen) acc
  | .setV i elems :: rest, seen, acc =>
    if i ∈ seen then runFingerprint rest seen acc
    else
      runFingerprint
        (((sortSetElems elems).map (fun p => PyVal.intV p.1 p.2)).reverse ++ rest)
        (i :: seen) acc
  | .objV i :: rest, seen, acc =>
    if i ∈ seen then runFingerprint rest seen acc
    else runFingerprint rest (i :: seen) (acc ++ [Int.ofNat i])
termination_by st _ _ => PyVal.sizeList st
decreasing_by
all_goals
  have happ : ∀ l r : List PyVal,
      PyVal.sizeList (l ++ r) = PyVal.sizeList l + PyVal.sizeList r := by
    intro l r
    induction l with
    | nil => simp [PyVal.sizeList]
    | cons v vs ih => simp [PyVal.sizeList, ih]; omega
  have hrev : ∀ l : List PyVal, PyVal.sizeList l.reverse = PyVal.sizeList l := by
    intro l
    induction l with
    | nil => rfl
    | cons v vs ih => simp [PyVal.sizeList, List.reverse_cons, happ, ih]; omega
  have hints : ∀ l : List (ℕ × ℤ),
      PyVal.sizeList (l.map (fun p => PyVal.intV p.1 p.2)) = l.length := by
    intro l
    induction l with
    | nil => rfl
    | cons p ps ih => simp [PyVal.sizeList, PyVal.size, ih]; omega
  first
  | (simp [happ, hrev, hints, sortSetElems, List.length_insertionSort,
       PyVal.sizeList, PyVal.size]
     omega)
  | simp [happ, hrev, hints, sortSetElems, List.length_insertionSort,
      PyVal.sizeList, PyVal.size]

/-- `_process_isolated_fingerprint(value)`, as the stream of blocks fed to
`blake2b` (which determines the hex digest). -/
def process_isolated_fingerprint (value : PyVal) : List ℤ :=
  (runFingerprint [value] [] []).1

end Fingerprint

/-- Claim C2: for every entry stored in the in-process store with TTL `T` at
time `cachedAt`, a `get` at any `now ≤ cachedAt + T` returns the entry (a hit)
and a `get` at any `now > cachedAt + T` returns absent; equivalently,
`is_expired()` is true iff the TTL is non-null and `now() > expiresAt`, where
`expiresAt` is computed once at creation as `cachedAt + T`. -/
theorem C2_ttl_expiry (s : MemStore) (fid ckey : String) (r : Val) (T : ℚ)
    (t0 now : Time) :
    (now ≤ t0 + T →
      MemoryStorage.get (MemoryStorage.set s fid ckey r (some T) t0) fid ckey false now
        = some (CacheEntry.make r (some T) t0)) ∧
    (t0 + T < now →
      MemoryStorage.get (MemoryStorage.set s fid ckey r (some T) t0) fid ckey false now
        = none) ∧
    (∀ e : CacheEntry, e.is_expired now = true ↔ e.ttl ≠ none ∧ now > e.expires_at) ∧
    (CacheEntry.make r (some T) t0).expires_at = t0 + T ∧
    (CacheEntry.make r (some T) t0).cached_at = t0 := by
  refine ⟨?_, ?_, ?_, rfl, rfl⟩
  · intro h
    simp [MemoryStorage.get, MemoryStorage.set, lookupStore, CacheEntry.is_expired,
      CacheEntry.make, not_lt.mpr h]
  · intro h
    simp [MemoryStorage.get, MemoryStorage.set, lookupStore, CacheEntry.is_expired,
      CacheEntry.make, h]
  · intro e
    cases he : e.ttl with
    | none => simp [CacheEntry.is_expired, he]
    | some t => simp [CacheEntry.is_expired, he]

/-- Concrete instance of `C2_ttl_expiry`: a hit at `now = cachedAt + T` and a
miss just past it. -/
theorem C2_ttl_expiry_witness :
    MemoryStorage.get (MemoryStorage.set [] "f" "k" 7 (some 1) 0) "f" "k" false 1
      = some (CacheEntry.make 7 (some 1) 0) ∧
    MemoryStorage.get (MemoryStorage.set [] "f" "k" 7 (some 1) 0) "f" "k" false 2
      = none :=
  ⟨(C2_ttl_expiry [] "f" "k" 7 1 0 1).1 (by norm_num),
   (C2_ttl_expiry [] "f" "k" 7 1 0 2).2.1 (by norm_num)⟩

/-- Claim C4: a call carrying `skip_cache=true` has the flag removed from the
keyword arguments before fingerprinting (so its cache key equals that of the
identical call without the flag), both the fast-path and the under-lock store
reads report a miss, the wrapped computation always executes, and its result
overwrites the stored entry regardless of the freshness of any existing entry. -/
theorem C4_skip_cache (ttl : ℚ) (never_die : Bool) (fid : String)
    (ckf : Kwargs → String) (kwargs : Kwargs)
    (hk : ∀ p ∈ kwargs, p.1 ≠ "skip_cache") (v : Int) (hv : v ≠ 0)
    (r : Val) (s : MemStore) (now : Time) :
    popSkipCache (("skip_cache", v) :: kwargs) = (true, kwargs) ∧
    MemoryStorage.get s fid (ckf kwargs) true now = none ∧
    sync_wrapper_call ttl never_die fid ckf (("skip_cache", v) :: kwargs) (.ok r) s now
      = (.ok r,
          MemoryStorage.set s fid (ckf kwargs) r
            (if never_die then none else some ttl) now) ∧
    lookupStore
      (MemoryStorage.set s fid (ckf kwargs) r (if never_die then none else some ttl) now)
      fid (ckf kwargs)
      = some (CacheEntry.make r (if never_die then none else some ttl) now) := by
  have hpop : popSkipCache (("skip_cache", v) :: kwargs) = (true, kwargs) := by
    have hfilter : kwargs.filter (fun q => !(q.1 == "skip_cache")) = kwargs := by
      refine List.filter_eq_self.mpr ?_
      intro p hp
      simpa using hk p hp
    simp [popSkipCache, hv, hfilter]
  refine ⟨hpop, by simp [MemoryStorage.get], ?_, ?_⟩
  · simp [sync_wrapper_call, hpop, sync_wrapper_run, MemoryStorage.get]
  · simp [MemoryStorage.set, lookupStore]

/-- Concrete instance of `C4_skip_cache`: with a fresh entry already stored for
the same key, the flagged call still executes and overwrites it. -/
theorem C4_skip_cache_witness :
    sync_wrapper_call 60 false "f" (fun _ => "k") [("skip_cache", 1), ("x", 5)]
      (.ok 9) [(("f", "k"), CacheEntry.make 3 (some 60) 0)] 1
      = (.ok 9,
          MemoryStorage.set [(("f", "k"), CacheEntry.make 3 (some 60) 0)] "f" "k" 9
            (some 60) 1) :=
  (C4_skip_cache 60 false "f" (fun _ => "k") [("x", 5)] (by decide) 1 (by decide) 9
    [(("f", "k"), CacheEntry.make 3 (some 60) 0)] 1).2.2.1

/-- Claim C7: for an ordinary (non-never-die) cached call whose wrapped
computation raises, the exception propagates unchanged to the caller and the
store is left unchanged — no entry is written for that `(functionID, digest)`. -/
theorem C7_computation_failure (ttl : ℚ) (fid ckey : String) (exn : Exn)
    (s : MemStore) (now : Time)
    (hmiss : MemoryStorage.get s fid ckey false now = none) :
    sync_wrapper_run ttl false fid ckey false (.error exn) s now = (.error exn, s) := by
  simp [sync_wrapper_run, hmiss]

/-- Concrete instance of `C7_computation_failure` on an empty store. -/
theorem C7_computation_failure_witness :
    sync_wrapper_run 60 false "f" "k" false (.error "boom") [] 0
      = (.error "boom", ([] : MemStore)) :=
  C7_computation_failure 60 "f" "k" "boom" [] 0 (by simp [MemoryStorage.get, lookupStore])

/-- Claim C9: every store write on behalf of a never-die call passes
`ttl = None` — both the decorator's own write (`None if never_die else ttl`)
and every background refresh — and an entry with a null TTL is never expired,
is returned by `get` at every time, and survives every sweeper pass: never-die
entries are never evicted at the Store layer. -/
theorem C9_never_die_null_ttl (ttl : ℚ) (fid ckey : String) (r : Val)
    (s : MemStore) (now : Time)
    (hmiss : MemoryStorage.get s fid ckey false now = none) :
    sync_wrapper_run ttl true fid ckey false (.ok r) s now
      = (.ok r, MemoryStorage.set s fid ckey r none now) ∧
    (∀ (e : NeverDieCacheEntry) (r' : Val) (s' : MemStore) (t : Time),
      run_sync_function_and_cache e fid ckey (.ok r') s' t
        = (e.reset t, MemoryStorage.set s' fid ckey r' none t)) ∧
    (∀ t : Time, (CacheEntry.make r none now).is_expired t = false) ∧
    (∀ t : Time,
      MemoryStorage.get (MemoryStorage.set s fid ckey r none now) fid ckey false t
        = some (CacheEntry.make r none now)) ∧
    (∀ t : Time,
      lookupStore
        (MemoryStorage.clearExpiredPass (MemoryStorage.set s fid ckey r none now) t)
        fid ckey = some (CacheEntry.make r none now)) := by
  refine ⟨?_, fun e r' s' t => rfl, fun t => rfl, ?_, ?_⟩
  · simp [sync_wrapper_run, hmiss]
  · intro t
    simp [MemoryStorage.get, MemoryStorage.set, lookupStore, CacheEntry.is_expired,
      CacheEntry.make]
  · intro t
    simp [MemoryStorage.clearExpiredPass, MemoryStorage.set, lookupStore,
      CacheEntry.is_expired, CacheEntry.make]

/-- Concrete instance of `C9_never_die_null_ttl`: the never-die write carries a
null TTL and is still present (unexpired, unswept) far past the decorator TTL. -/
theorem C9_never_die_null_ttl_witness :
    sync_wrapper_run 1 true "f" "k" false (.ok 5) [] 0
      = (.ok 5, MemoryStorage.set [] "f" "k" 5 none 0) ∧
    MemoryStorage.get (MemoryStorage.set [] "f" "k" 5 none 0) "f" "k" false 1000000
      = some (CacheEntry.make 5 none 0) ∧
    lookupStore
      (MemoryStorage.clearExpiredPass (MemoryStorage.set [] "f" "k" 5 none 0) 1000000)
      "f" "k" = some (CacheEntry.make 5 none 0) := by
  have h := C9_never_die_null_ttl 1 "f" "k" 5 [] 0
    (by simp [MemoryStorage.get, lookupStore])
  exact ⟨h.1, h.2.2.2.1 1000000, h.2.2.2.2 1000000⟩

/-- Invariant of the backoff state machine: `revive` keeps the TTL and keeps
the backoff factor in `[1, 10]`, starting from any entry in that range. -/
theorem reviveIter_invariant (e : NeverDieCacheEntry) (h1 : 1 ≤ e.backoff)
    (h2 : e.backoff ≤ 10) (ts : List Time) :
    (e.reviveIter ts).ttl = e.ttl ∧
    1 ≤ (e.reviveIter ts).backoff ∧ (e.reviveIter ts).backoff ≤ 10 := by
  induction ts generalizing e with
  | nil => exact ⟨rfl, h1, h2⟩
  | cons t ts ih =>
    have hb1 : 1 ≤ (e.revive t).backoff := by
      refine le_min ?_ (by norm_num [MAX_BACKOFF])
      rw [BACKOFF_MULTIPLIER]
      linarith
    have hb2 : (e.revive t).backoff ≤ 10 := by
      simpa [NeverDieCacheEntry.revive, MAX_BACKOFF] using
        min_le_right (e.backoff * BACKOFF_MULTIPLIER) 10
    have := ih (e.revive t) hb1 hb2
    simpa [NeverDieCacheEntry.reviveIter, NeverDieCacheEntry.revive] using this

/-- Claim C5: for a never-die entry with TTL `T`, the backoff factor starts at
`1.0`; each failed refresh (`revive`) multiplies it by `1.25` capped at `10`
and sets the next due time to `now + T * backoff`, so over any run of
consecutive failures the refresh delay is non-decreasing and never exceeds
`T * 10`; a successful refresh (`reset`) restores the factor to `1.0` and the
delay to `T * 1`. -/
theorem C5_backoff (T : ℚ) (hT : 0 < T) (t0 : Time) :
    (NeverDieCacheEntry.init T t0).backoff = 1 ∧
    (NeverDieCacheEntry.init T t0).expires_at = t0 + T ∧
    (∀ (ts : List Time) (t : Time),
      ((NeverDieCacheEntry.init T t0).reviveIter ts).backoff
          ≤ (((NeverDieCacheEntry.init T t0).reviveIter ts).revive t).backoff ∧
      (((NeverDieCacheEntry.init T t0).reviveIter ts).revive t).backoff ≤ 10 ∧
      (((NeverDieCacheEntry.init T t0).reviveIter ts).revive t).expires_at
          = t + T * (((NeverDieCacheEntry.init T t0).reviveIter ts).revive t).backoff ∧
      (((NeverDieCacheEntry.init T t0).reviveIter ts).revive t).expires_at - t
          ≤ T * 10) ∧
    (∀ (ts : List Time) (t : Time),
      (((NeverDieCacheEntry.init T t0).reviveIter ts).reset t).backoff = 1 ∧
      (((NeverDieCacheEntry.init T t0).reviveIter ts).reset t).expires_at
          = t + T * 1) := by
  refine ⟨rfl, rfl, ?_, ?_⟩
  · intro ts t
    obtain ⟨httl, h1, h2⟩ :=
      reviveIter_invariant (NeverDieCacheEntry.init T t0) le_rfl
        (by norm_num [NeverDieCacheEntry.init]) ts
    set e := (NeverDieCacheEntry.init T t0).reviveIter ts with he
    have httl' : e.ttl = T := httl.trans rfl
    have hmono : e.backoff ≤ (e.revive t).backoff := by
      refine le_min ?_ h2
      rw [BACKOFF_MULTIPLIER]
      linarith
    have hcap : (e.revive t).backoff ≤ 10 := by
      simpa [NeverDieCacheEntry.revive, MAX_BACKOFF] using
        min_le_right (e.backoff * BACKOFF_MULTIPLIER) 10
    have hdue : (e.revive t).expires_at = t + T * (e.revive t).backoff := by
      simp [NeverDieCacheEntry.revive, httl']
    refine ⟨hmono, hcap, hdue, ?_⟩
    rw [hdue]
    have : T * (e.revive t).backoff ≤ T * 10 :=
      mul_le_mul_of_nonneg_left hcap (le_of_lt hT)
    linarith
  · intro ts t
    obtain ⟨httl, _, _⟩ :=
      reviveIter_invariant (NeverDieCacheEntry.init T t0) le_rfl
        (by norm_num [NeverDieCacheEntry.init]) ts
    have httl' : ((NeverDieCacheEntry.init T t0).reviveIter ts).ttl = T := httl.trans rfl
    exact ⟨rfl, by simp [NeverDieCacheEntry.reset, httl']⟩

/-- Concrete instance of `C5_backoff` after three consecutive failures. -/
theorem C5_backoff_witness :
    (((NeverDieCacheEntry.init 4 0).reviveIter [1, 2]).revive 3).backoff ≤ 10 ∧
    (((NeverDieCacheEntry.init 4 0).reviveIter [1, 2]).revive 3).expires_at - 3
      ≤ 4 * 10 ∧
    (((NeverDieCacheEntry.init 4 0).reviveIter [1, 2]).reset 5).backoff = 1 :=
  ⟨((C5_backoff 4 (by norm_num) 0).2.2.1 [1, 2] 3).2.1,
   ((C5_backoff 4 (by norm_num) 0).2.2.1 [1, 2] 3).2.2.2,
   ((C5_backoff 4 (by norm_num) 0).2.2.2 [1, 2] 5).1⟩

/-- Claim C6: a result value that cannot be pickled makes `RedisStorage.set` /
`aset` raise under both `on_error` policies, with no Redis write attempted;
an I/O failure during the actual write is swallowed when `on_error` is
`silent` and propagated when it is `raise` (the write having been attempted). -/
theorem C6_serialize_raises (onError : OnError) (pre fid ckey : String)
    (ttl : Option ℚ) (io : Except Exn Unit) (now : Time) :
    (∀ objId : ℕ,
      RedisStorage.set onError pre fid ckey (.unpicklable objId) ttl io now
        = (.error "TypeError: Failed to serialize cache entry", none) ∧
      RedisStorage.aset onError pre fid ckey (.unpicklable objId) ttl io now
        = (.error "TypeError: Failed to serialize cache entry", none)) ∧
    (∀ (v : Int) (exn : Exn),
      (RedisStorage.set .silent pre fid ckey (.picklable v) ttl (.error exn) now).1
        = .ok () ∧
      (RedisStorage.set .raiseMode pre fid ckey (.picklable v) ttl (.error exn) now).1
        = .error exn ∧
      (RedisStorage.set onError pre fid ckey (.picklable v) ttl (.error exn) now).2
        ≠ none ∧
      (RedisStorage.aset .silent pre fid ckey (.picklable v) ttl (.error exn) now).1
        = .ok () ∧
      (RedisStorage.aset .raiseMode pre fid ckey (.picklable v) ttl (.error exn) now).1
        = .error exn ∧
      (RedisStorage.aset onError pre fid ckey (.picklable v) ttl (.error exn) now).2
        ≠ none) := by
  constructor
  · intro objId
    constructor <;>
      simp [RedisStorage.set, RedisStorage.aset, RedisStorage.serialize,
        RedisCacheEntry.make]
  · intro v exn
    refine ⟨?_, ?_, ?_, ?_, ?_, ?_⟩ <;>
      cases ttl <;>
        simp [RedisStorage.set, RedisStorage.aset, RedisStorage.serialize,
          RedisCacheEntry.make] <;>
        cases onError <;> simp

/-- Claim C3 (spec-modelled): while a distributed critical section runs — for
any duration, in particular longer than the lock timeout — the heartbeat
started at acquisition re-extends the lease every `timeout / 2`, so the lease's
remaining TTL stays strictly above `timeout / 2 > 0` at every instant, and a
second caller for the same key can never acquire a lapsed lock mid-execution. -/
theorem C3_heartbeat (timeout : ℚ) (ht : 0 < timeout) (t : ℚ) (h0 : 0 ≤ t) :
    heartbeatInterval timeout = timeout / 2 ∧
    timeout / 2 < leaseRemaining timeout t ∧
    leaseRemaining timeout t ≤ timeout ∧
    0 < leaseRemaining timeout t ∧
    ¬ secondCallerCanAcquire timeout t := by
  have hh : 0 < timeout / 2 := by linarith
  have hfl : ((⌊t / (timeout / 2)⌋ : ℚ)) ≤ t / (timeout / 2) := Int.floor_le _
  have hfu : t / (timeout / 2) < (⌊t / (timeout / 2)⌋ : ℚ) + 1 := Int.lt_floor_add_one _
  have hlow : ((⌊t / (timeout / 2)⌋ : ℚ)) * (timeout / 2) ≤ t := (le_div_iff₀ hh).mp hfl
  have hup : t < ((⌊t / (timeout / 2)⌋ : ℚ)) * (timeout / 2) + timeout / 2 := by
    have := (div_lt_iff₀ hh).mp hfu
    linarith
  have hlast : lastExtension timeout t = ((⌊t / (timeout / 2)⌋ : ℚ)) * (timeout / 2) := by
    rw [lastExtension, heartbeatInterval, mul_comm]
  have hrem : leaseRemaining timeout t
      = timeout - (t - ((⌊t / (timeout / 2)⌋ : ℚ)) * (timeout / 2)) := by
    rw [leaseRemaining, hlast]
  refine ⟨rfl, ?_, ?_, ?_, ?_⟩
  · rw [hrem]; linarith
  · rw [hrem]; linarith
  · rw [hrem]; linarith
  · rw [secondCallerCanAcquire, hrem]; push_neg; linarith

/-- Concrete instance of `C3_heartbeat`: with a 2-second lock timeout, the lease
is still live 5 seconds into the critical section. -/
theorem C3_heartbeat_witness :
    0 < leaseRemaining 2 5 ∧ ¬ secondCallerCanAcquire 2 5 :=
  ⟨(C3_heartbeat 2 (by norm_num) 5 (by norm_num)).2.2.2.1,
   (C3_heartbeat 2 (by norm_num) 5 (by norm_num)).2.2.2.2⟩

namespace Stampede

/-- Two callers inside the `with lock_context(...)` block are the same caller. -/
theorem holders_eq {N : ℕ} {compVal : ℕ → ℤ} {s : Sys N} (hinv : Inv compVal s)
    {i j : Fin N} (hi : holdsLock (s.callers i)) (hj : holdsLock (s.callers j)) :
    i = j := by
  have h1 := hinv.lockOwner i hi
  have h2 := hinv.lockOwner j hj
  rw [h1] at h2
  exact Option.some.inj h2

/-- The invariant holds in the initial state of a cache-miss episode. -/
theorem inv_init (compVal : ℕ → ℤ) (N : ℕ) : Inv compVal (init N) := by
  refine ⟨?_, ?_, ?_, ?_, ?_, ?_, ?_, ?_⟩ <;>
    simp [init, holdsLock]

/-- The invariant is preserved by every interleaved step. -/
theorem inv_step {N : ℕ} {compVal : ℕ → ℤ} {s s' : Sys N}
    (hinv : Inv compVal s) (hstep : Step compVal s s') : Inv compVal s' := by
  cases hstep with
  | fastHit i v hc hs =>
    refine ⟨?_, hinv.storeVal, hinv.execLe, ?_, ?_, ?_, ?_, ?_⟩
    · intro k hk
      by_cases hki : k = i
      · subst hki; simp only [Function.update_same] at hk; simp [holdsLock] at hk
      · simp only [Function.update_noteq hki] at hk
        exact hinv.lockOwner k hk
    · intro h
      rcases hinv.execWitness h with h' | ⟨j, v', hj⟩
      · exact Or.inl h'
      · have hji : j ≠ i := by intro he; subst he; rw [hc] at hj; exact absurd hj (by simp)
        exact Or.inr ⟨j, v', by simp only [Function.update_noteq hji]; exact hj⟩
    · intro k hk
      by_cases hki : k = i
      · subst hki; simp only [Function.update_same] at hk; exact absurd hk (by simp)
      · simp only [Function.update_noteq hki] at hk
        exact hinv.stComputing k hk
    · intro k v' hk
      by_cases hki : k = i
      · subst hki; simp only [Function.update_same] at hk; exact absurd hk (by simp)
      · simp only [Function.update_noteq hki] at hk
        exact hinv.stStoring k v' hk
    · intro k v' hk
      by_cases hki : k = i
      · subst hki; simp only [Function.update_same] at hk; exact absurd hk (by simp)
      · simp only [Function.update_noteq hki] at hk
        exact hinv.stReleasing k v' hk
    · intro k v' hk
      by_cases hki : k = i
      · subst hki; simp only [Function.update_same] at hk
        have hv2 : v' = v := by injection hk with h; exact h.symm
        exact hv2.trans (hinv.storeVal v hs).1
      · simp only [Function.update_noteq hki] at hk
        exact hinv.stDone k v' hk
  | fastMiss i hc hs =>
    refine ⟨?_, hinv.storeVal, hinv.execLe, ?_, ?_, ?_, ?_, ?_⟩
    · intro k hk
      by_cases hki : k = i
      · subst hki; simp only [Function.update_same] at hk; simp [holdsLock] at hk
      · simp only [Function.update_noteq hki] at hk
        exact hinv.lockOwner k hk
    · intro h
      rcases hinv.execWitness h with h' | ⟨j, v', hj⟩
      · exact Or.inl h'
      · have hji : j ≠ i := by intro he; subst he; rw [hc] at hj; exact absurd hj (by simp)
        exact Or.inr ⟨j, v', by simp only [Function.update_noteq hji]; exact hj⟩
    · intro k hk
      by_cases hki : k = i
      · subst hki; simp only [Function.update_same] at hk; exact absurd hk (by simp)
      · simp only [Function.update_noteq hki] at hk
        exact hinv.stComputing k hk
    · intro k v' hk
      by_cases hki : k = i
      · subst hki; simp only [Function.update_same] at hk; exact absurd hk (by simp)
      · simp only [Function.update_noteq hki] at hk
        exact hinv.stStoring k v' hk
    · intro k v' hk
      by_cases hki : k = i
      · subst hki; simp only [Function.update_same] at hk; exact absurd hk (by simp)
      · simp only [Function.update_noteq hki] at hk
        exact hinv.stReleasing k v' hk
    · intro k v' hk
      by_cases hki : k = i
      · subst hki; simp only [Function.update_same] at hk; exact absurd hk (by simp)
      · simp only [Function.update_noteq hki] at hk
        exact hinv.stDone k v' hk
  | acquire i hc hl =>
    refine ⟨?_, hinv.storeVal, hinv.execLe, ?_, ?_, ?_, ?_, ?_⟩
    · intro k hk
      by_cases hki : k = i
      · subst hki; rfl
      · simp only [Function.update_noteq hki] at hk
        have := hinv.lockOwner k hk
        rw [hl] at this
        exact absurd this (by simp)
    · intro h
      rcases hinv.execWitness h with h' | ⟨j, v', hj⟩
      · exact Or.inl h'
      · have hji : j ≠ i := by intro he; subst he; rw [hc] at hj; exact absurd hj (by simp)
        exact Or.inr ⟨j, v', by simp only [Function.update_noteq hji]; exact hj⟩
    · intro k hk
      by_cases hki : k = i
      · subst hki; simp only [Function.update_same] at hk; exact absurd hk (by simp)
      · simp only [Function.update_noteq hki] at hk
        exact hinv.stComputing k hk
    · intro k v' hk
      by_cases hki : k = i
      · subst hki; simp only [Function.update_same] at hk; exact absurd hk (by simp)
      · simp only [Function.update_noteq hki] at hk
        exact hinv.stStoring k v' hk
    · intro k v' hk
      by_cases hki : k = i
      · subst hki; simp only [Function.update_same] at hk; exact absurd hk (by simp)
      · simp only [Function.update_noteq hki] at hk
        exact hinv.stReleasing k v' hk
    · intro k v' hk
      by_cases hki : k = i
      · subst hki; simp only [Function.update_same] at hk; exact absurd hk (by simp)
      · simp only [Function.update_noteq hki] at hk
        exact hinv.stDone k v' hk
  | recheckHit i v hc hs =>
    have hhold : holdsLock (s.callers i) := by rw [hc]; trivial
    have hv : v = compVal 0 := (hinv.storeVal v hs).1
    refine ⟨?_, hinv.storeVal, hinv.execLe, ?_, ?_, ?_, ?_, ?_⟩
    · intro k hk
      by_cases hki : k = i
      · subst hki; exact hinv.lockOwner _ hhold
      · simp only [Function.update_noteq hki] at hk
        exact hinv.lockOwner k hk
    · intro h
      rcases hinv.execWitness h with h' | ⟨j, v', hj⟩
      · exact Or.inl h'
      · have hji : j ≠ i := by intro he; subst he; rw [hc] at hj; exact absurd hj (by simp)
        exact Or.inr ⟨j, v', by simp only [Function.update_noteq hji]; exact hj⟩
    · intro k hk
      by_cases hki : k = i
      · subst hki; simp only [Function.update_same] at hk; exact absurd hk (by simp)
      · simp only [Function.update_noteq hki] at hk
        exact hinv.stComputing k hk
    · intro k v' hk
      by_cases hki : k = i
      · subst hki; simp only [Function.update_same] at hk; exact absurd hk (by simp)
      · simp only [Function.update_noteq hki] at hk
        exact hinv.stStoring k v' hk
    · intro k v' hk
      by_cases hki : k = i
      · subst hki; simp only [Function.update_same] at hk
        have hv2 : v' = v := by injection hk with h; exact h.symm
        refine ⟨hv2.trans hv, ?_⟩
        simp only [hs, hv]
      · simp only [Function.update_noteq hki] at hk
        exact hinv.stReleasing k v' hk
    · intro k v' hk
      by_cases hki : k = i
      · subst hki; simp only [Function.update_same] at hk; exact absurd hk (by simp)
      · simp only [Function.update_noteq hki] at hk
        exact hinv.stDone k v' hk
  | recheckMiss i hc hs =>
    have hhold : holdsLock (s.callers i) := by rw [hc]; trivial
    have hexec0 : s.execCount = 0 := by
      by_contra hne
      have h1 : 1 ≤ s.execCount := Nat.one_le_iff_ne_zero.mpr hne
      rcases hinv.execWitness h1 with h' | ⟨j, v', hj⟩
      · exact h' hs
      · have hjhold : holdsLock (s.callers j) := by rw [hj]; trivial
        have := holders_eq hinv hhold hjhold
        subst this
        rw [hc] at hj
        exact absurd hj (by simp)
    refine ⟨?_, hinv.storeVal, hinv.execLe, ?_, ?_, ?_, ?_, ?_⟩
    · intro k hk
      by_cases hki : k = i
      · subst hki; exact hinv.lockOwner _ hhold
      · simp only [Function.update_noteq hki] at hk
        exact hinv.lockOwner k hk
    · intro h
      simp only [hexec0] at h
      exact absurd h (by omega)
    · intro k hk
      by_cases hki : k = i
      · subst hki; exact ⟨hs, hexec0⟩
      · simp only [Function.update_noteq hki] at hk
        exact hinv.stComputing k hk
    · intro k v' hk
      by_cases hki : k = i
      · subst hki; simp only [Function.update_same] at hk; exact absurd hk (by simp)
      · simp only [Function.update_noteq hki] at hk
        exact hinv.stStoring k v' hk
    · intro k v' hk
      by_cases hki : k = i
      · subst hki; simp only [Function.update_same] at hk; exact absurd hk (by simp)
      · simp only [Function.update_noteq hki] at hk
        exact hinv.stReleasing k v' hk
    · intro k v' hk
      by_cases hki : k = i
      · subst hki; simp only [Function.update_same] at hk; exact absurd hk (by simp)
      · simp only [Function.update_noteq hki] at hk
        exact hinv.stDone k v' hk
  | execute i hc =>
    have hhold : holdsLock (s.callers i) := by rw [hc]; trivial
    obtain ⟨hsnone, hexec0⟩ := hinv.stComputing i hc
    refine ⟨?_, ?_, ?_, ?_, ?_, ?_, ?_, ?_⟩
    · intro k hk
      by_cases hki : k = i
      · subst hki; exact hinv.lockOwner _ hhold
      · simp only [Function.update_noteq hki] at hk
        exact hinv.lockOwner k hk
    · intro v' hv'
      simp [hsnone] at hv'
    · simp [hexec0]
    · intro _
      exact Or.inr ⟨i, compVal s.execCount, by simp only [Function.update_same]⟩
    · intro k hk
      by_cases hki : k = i
      · subst hki; simp only [Function.update_same] at hk; exact absurd hk (by simp)
      · simp only [Function.update_noteq hki] at hk
        have hkhold : holdsLock (s.callers k) := by rw [hk]; trivial
        exact absurd (holders_eq hinv hkhold hhold) hki
    · intro k v' hk
      by_cases hki : k = i
      · subst hki; simp only [Function.update_same] at hk
        have hv' : v' = compVal s.execCount := by injection hk with h; exact h.symm
        subst hv'
        rw [hexec0]
        exact ⟨rfl, hsnone, rfl⟩
      · simp only [Function.update_noteq hki] at hk
        have hkhold : holdsLock (s.callers k) := by rw [hk]; trivial
        exact absurd (holders_eq hinv hkhold hhold) hki
    · intro k v' hk
      by_cases hki : k = i
      · subst hki; simp only [Function.update_same] at hk; exact absurd hk (by simp)
      · simp only [Function.update_noteq hki] at hk
        have := (hinv.stReleasing k v' hk).2
        rw [hsnone] at this
        exact absurd this (by simp)
    · intro k v' hk
      by_cases hki : k = i
      · subst hki; simp only [Function.update_same] at hk; exact absurd hk (by simp)
      · simp only [Function.update_noteq hki] at hk
        exact hinv.stDone k v' hk
  | storeWrite i v hc =>
    have hhold : holdsLock (s.callers i) := by rw [hc]; trivial
    obtain ⟨hv, hsnone, hexec1⟩ := hinv.stStoring i v hc
    refine ⟨?_, ?_, hinv.execLe, ?_, ?_, ?_, ?_, ?_⟩
    · intro k hk
      by_cases hki : k = i
      · subst hki; exact hinv.lockOwner _ hhold
      · simp only [Function.update_noteq hki] at hk
        exact hinv.lockOwner k hk
    · intro v' hv'
      have hvv : v' = v := Option.some.inj hv'.symm
      exact ⟨hvv.trans hv, by simp [hexec1]⟩
    · intro _
      exact Or.inl (by simp)
    · intro k hk
      by_cases hki : k = i
      · subst hki; simp only [Function.update_same] at hk; exact absurd hk (by simp)
      · simp only [Function.update_noteq hki] at hk
        have hkhold : holdsLock (s.callers k) := by rw [hk]; trivial
        exact absurd (holders_eq hinv hkhold hhold) hki
    · intro k v' hk
      by_cases hki : k = i
      · subst hki; simp only [Function.update_same] at hk; exact absurd hk (by simp)
      · simp only [Function.update_noteq hki] at hk
        have hkhold : holdsLock (s.callers k) := by rw [hk]; trivial
        exact absurd (holders_eq hinv hkhold hhold) hki
    · intro k v' hk
      by_cases hki : k = i
      · subst hki; simp only [Function.update_same] at hk
        have hv2 : v' = v := by injection hk with h; exact h.symm
        refine ⟨hv2.trans hv, ?_⟩
        simp only [hv]
      · simp only [Function.update_noteq hki] at hk
        have := (hinv.stReleasing k v' hk).2
        rw [hsnone] at this
        exact absurd this (by simp)
    · intro k v' hk
      by_cases hki : k = i
      · subst hki; simp only [Function.update_same] at hk; exact absurd hk (by simp)
      · simp only [Function.update_noteq hki] at hk
        exact hinv.stDone k v' hk
  | release i v hc =>
    have hhold : holdsLock (s.callers i) := by rw [hc]; trivial
    obtain ⟨hv, hssome⟩ := hinv.stReleasing i v hc
    refine ⟨?_, hinv.storeVal, hinv.execLe, ?_, ?_, ?_, ?_, ?_⟩
    · intro k hk
      by_cases hki : k = i
      · subst hki; simp only [Function.update_same] at hk; simp [holdsLock] at hk
      · simp only [Function.update_noteq hki] at hk
        exact absurd (holders_eq hinv hk hhold) hki
    · intro h
      rcases hinv.execWitness h with h' | ⟨j, v', hj⟩
      · exact Or.inl h'
      · have hji : j ≠ i := by intro he; subst he; rw [hc] at hj; exact absurd hj (by simp)
        exact Or.inr ⟨j, v', by simp only [Function.update_noteq hji]; exact hj⟩
    · intro k hk
      by_cases hki : k = i
      · subst hki; simp only [Function.update_same] at hk; exact absurd hk (by simp)
      · simp only [Function.update_noteq hki] at hk
        have := (hinv.stComputing k hk).1
        rw [hssome] at this
        exact absurd this (by simp)
    · intro k v' hk
      by_cases hki : k = i
      · subst hki; simp only [Function.update_same] at hk; exact absurd hk (by simp)
      · simp only [Function.update_noteq hki] at hk
        have := (hinv.stStoring k v' hk).2.1
        rw [hssome] at this
        exact absurd this (by simp)
    · intro k v' hk
      by_cases hki : k = i
      · subst hki; simp only [Function.update_same] at hk; exact absurd hk (by simp)
      · simp only [Function.update_noteq hki] at hk
        exact hinv.stReleasing k v' hk
    · intro k v' hk
      by_cases hki : k = i
      · subst hki; simp only [Function.update_same] at hk
        have hv2 : v' = v := by injection hk with h; exact h.symm
        exact hv2.trans hv
      · simp only [Function.update_noteq hki] at hk
        exact hinv.stDone k v' hk

/-- The invariant holds in every reachable state. -/
theorem inv_reachable {N : ℕ} {compVal : ℕ → ℤ} {s : Sys N}
    (h : Reachable compVal s) : Inv compVal s := by
  induction h with
  | refl => exact inv_init compVal N
  | tail _ hstep ih => exact inv_step ih hstep

end Stampede

/-- Claim C1: for `N ≥ 0` concurrent calls of the same wrapped function with
identical `(functionID, digest)`, no never-die flag and no prior cache entry,
in every state reachable by interleaving the double-checked pattern
(fast-path lookup, acquire KeyedLock, re-check store, execute only on a second
miss) the wrapped computation has been executed at most once, and every call
that has returned returned the value of that single (first) execution. -/
theorem C1_stampede {N : ℕ} (compVal : ℕ → ℤ) (s : Stampede.Sys N)
    (h : Stampede.Reachable compVal s) :
    s.execCount ≤ 1 ∧
    (∀ (i : Fin N) (v : ℤ), s.callers i = .done v → v = compVal 0) := by
  have hinv := Stampede.inv_reachable h
  exact ⟨hinv.execLe, fun i v hd => hinv.stDone i v hd⟩

/-- Concrete instance of `C1_stampede` at the initial state of a two-caller
episode. -/
theorem C1_stampede_witness :
    (Stampede.init 2).execCount ≤ 1 ∧
    (∀ (i : Fin 2) (v : ℤ),
      (Stampede.init 2).callers i = .done v → v = (fun _ => (7 : ℤ)) 0) :=
  C1_stampede (fun _ => (7 : ℤ)) (Stampede.init 2) Relation.ReflTransGen.refl

namespace Fingerprint

/-- Every value's own id is among its ids. -/
theorem objId_mem_ids (v : PyVal) : v.objId ∈ v.ids := by
  cases v <;> simp [PyVal.objId, PyVal.ids]

/-- `idsList` distributes over append. -/
theorem idsList_append (l r : List PyVal) :
    PyVal.idsList (l ++ r) = PyVal.idsList l ++ PyVal.idsList r := by
  induction l with
  | nil => simp [PyVal.idsList]
  | cons v vs ih => simp [PyVal.idsList, ih]

/-- Membership in the ids of a reversed list. -/
theorem mem_idsList_reverse (a : ℕ) (l : List PyVal) :
    a ∈ PyVal.idsList l.reverse ↔ a ∈ PyVal.idsList l := by
  induction l with
  | nil => simp
  | cons v vs ih =>
    simp [PyVal.idsList, List.reverse_cons, idsList_append, ih]
    tauto

/-- The ids of a stack of bare `int` nodes are the attached object ids. -/
theorem idsList_map_intV (l : List (ℕ × ℤ)) :
    PyVal.idsList (l.map (fun p => PyVal.intV p.1 p.2)) = l.map Prod.fst := by
  induction l with
  | nil => rfl
  | cons p ps ih => simp [PyVal.idsList, PyVal.ids, ih]

/-- `sortSetElems` is a permutation of its input. -/
theorem sortSetElems_perm (l : List (ℕ × ℤ)) : (sortSetElems l).Perm l :=
  List.perm_insertionSort leVal l

/-- A node whose id was already visited is skipped outright. -/
theorem runFingerprint_skip (v : PyVal) (rest : List PyVal) (seen : List ℕ)
    (acc : List ℤ) (h : v.objId ∈ seen) :
    runFingerprint (v :: rest) seen acc = runFingerprint rest seen acc := by
  cases v <;> simp [PyVal.objId] at h <;> simp [runFingerprint, h]

/-- The traversal of a concatenated worklist is the traversal of the first
part followed by the traversal of the second from the accumulated state. -/
theorem runFingerprint_append (st2 st1 : List PyVal) (seen : List ℕ) (acc : List ℤ) :
    runFingerprint (st1 ++ st2) seen acc
      = runFingerprint st2 (runFingerprint st1 seen acc).2
          (runFingerprint st1 seen acc).1 := by
  induction st1, seen, acc using runFingerprint.induct with
  | case1 seen acc => simp [runFingerprint]
  | case2 i n rest seen acc hmem ih => simp [runFingerprint, hmem, ih]
  | case3 i n rest seen acc hmem ih => simp [runFingerprint, hmem, ih]
  | case4 i elems rest seen acc hmem ih => simp [runFingerprint, hmem, ih]
  | case5 i elems rest seen acc hmem ih =>
    simp only [List.cons_append, runFingerprint, if_neg hmem, List.append_assoc] at ih ⊢
    exact ih
  | case6 i elems rest seen acc hmem ih => simp [runFingerprint, hmem, ih]
  | case7 i elems rest seen acc hmem ih =>
    simp only [List.cons_append, runFingerprint, if_neg hmem, List.append_assoc] at ih ⊢
    exact ih
  | case8 i rest seen acc hmem ih => simp [runFingerprint, hmem, ih]
  | case9 i rest seen acc hmem ih =>
    simp only [List.cons_append, runFingerprint, if_neg hmem]
    exact ih

/-- The visited set only ever grows. -/
theorem runFingerprint_seen_mono (st : List PyVal) (seen : List ℕ) (acc : List ℤ) :
    ∀ a ∈ seen, a ∈ (runFingerprint st seen acc).2 := by
  induction st, seen, acc using runFingerprint.induct with
  | case1 seen acc => simp [runFingerprint]
  | case2 i n rest seen acc hmem ih => simpa [runFingerprint, hmem] using ih
  | case3 i n rest seen acc hmem ih =>
    intro a ha
    simpa [runFingerprint, hmem] using ih a (List.mem_cons_of_mem i ha)
  | case4 i elems rest seen acc hmem ih => simpa [runFingerprint, hmem] using ih
  | case5 i elems rest seen acc hmem ih =>
    intro a ha
    simpa [runFingerprint, hmem] using ih a (List.mem_cons_of_mem i ha)
  | case6 i elems rest seen acc hmem ih => simpa [runFingerprint, hmem] using ih
  | case7 i elems rest seen acc hmem ih =>
    intro a ha
    simpa [runFingerprint, hmem] using ih a (List.mem_cons_of_mem i ha)
  | case8 i rest seen acc hmem ih => simpa [runFingerprint, hmem] using ih
  | case9 i rest seen acc hmem ih =>
    intro a ha
    simpa [runFingerprint, hmem] using ih a (List.mem_cons_of_mem i ha)

/-- After the traversal has popped the top of the worklist, that node's id is
in the visited set. -/
theorem runFingerprint_head_seen (v : PyVal) (rest : List PyVal) (seen : List ℕ)
    (acc : List ℤ) : v.objId ∈ (runFingerprint (v :: rest) seen acc).2 := by
  by_cases h : v.objId ∈ seen
  · rw [runFingerprint_skip v rest seen acc h]
    exact runFingerprint_seen_mono rest seen acc _ h
  · cases v with
    | intV i n =>
      simp [PyVal.objId] at h ⊢
      simp [runFingerprint, h]
      exact runFingerprint_seen_mono _ _ _ i (List.mem_cons_self i seen)
    | listV i elems =>
      simp [PyVal.objId] at h ⊢
      simp [runFingerprint, h]
      exact runFingerprint_seen_mono _ _ _ i (List.mem_cons_self i seen)
    | setV i elems =>
      simp [PyVal.objId] at h ⊢
      simp [runFingerprint, h]
      exact runFingerprint_seen_mono _ _ _ i (List.mem_cons_self i seen)
    | objV i =>
      simp [PyVal.objId] at h ⊢
      simp [runFingerprint, h]
      exact runFingerprint_seen_mono _ _ _ i (List.mem_cons_self i seen)

/-- The emitted block stream depends on the visited set only through the ids
that actually occur in the worklist. -/
theorem runFingerprint_acc_congr (st : List PyVal) (seen : List ℕ) (acc : List ℤ) :
    ∀ seen2 : List ℕ,
      (∀ a, a ∈ PyVal.idsList st → (a ∈ seen ↔ a ∈ seen2)) →
      (runFingerprint st seen acc).1 = (runFingerprint st seen2 acc).1 := by
  induction st, seen, acc using runFingerprint.induct with
  | case1 seen acc => intro seen2 _; simp [runFingerprint]
  | case2 i n rest seen acc hmem ih =>
    intro seen2 hagree
    have hi : i ∈ PyVal.idsList (PyVal.intV i n :: rest) := by
      simp [PyVal.idsList, PyVal.ids]
    have hmem2 : i ∈ seen2 := (hagree i hi).mp hmem
    rw [runFingerprint_skip _ _ _ _ (by simpa [PyVal.objId] using hmem),
      runFingerprint_skip _ _ _ _ (by simpa [PyVal.objId] using hmem2)]
    exact ih seen2 fun a ha =>
      hagree a (by simp [PyVal.idsList]; exact Or.inr ha)
  | case3 i n rest seen acc hmem ih =>
    intro seen2 hagree
    have hi : i ∈ PyVal.idsList (PyVal.intV i n :: rest) := by
      simp [PyVal.idsList, PyVal.ids]
    have hmem2 : i ∉ seen2 := fun hc => hmem ((hagree i hi).mpr hc)
    simp only [runFingerprint, if_neg hmem, if_neg hmem2]
    refine ih (i :: seen2) fun a ha => ?_
    have := hagree a (by simp [PyVal.idsList]; exact Or.inr ha)
    simp [List.mem_cons, this]
  | case4 i elems rest seen acc hmem ih =>
    intro seen2 hagree
    have hi : i ∈ PyVal.idsList (PyVal.listV i elems :: rest) := by
      simp [PyVal.idsList, PyVal.ids]
    have hmem2 : i ∈ seen2 := (hagree i hi).mp hmem
    rw [runFingerprint_skip _ _ _ _ (by simpa [PyVal.objId] using hmem),
      runFingerprint_skip _ _ _ _ (by simpa [PyVal.objId] using hmem2)]
    exact ih seen2 fun a ha =>
      hagree a (by simp [PyVal.idsList]; exact Or.inr ha)
  | case5 i elems rest seen acc hmem ih =>
    intro seen2 hagree
    have hi : i ∈ PyVal.idsList (PyVal.listV i elems :: rest) := by
      simp [PyVal.idsList, PyVal.ids]
    have hmem2 : i ∉ seen2 := fun hc => hmem ((hagree i hi).mpr hc)
    simp only [runFingerprint, if_neg hmem, if_neg hmem2]
    refine ih (i :: seen2) fun a ha => ?_
    have ha' : a ∈ PyVal.idsList (PyVal.listV i elems :: rest) := by
      rw [idsList_append] at ha
      rcases List.mem_append.mp ha with h1 | h2
      · have h1' := (mem_idsList_reverse a elems).mp h1
        simp [PyVal.idsList, PyVal.ids]
        tauto
      · simp [PyVal.idsList, PyVal.ids]
        tauto
    have := hagree a ha'
    simp [List.mem_cons, this]
  | case6 i elems rest seen acc hmem ih =>
    intro seen2 hagree
    have hi : i ∈ PyVal.idsList (PyVal.setV i elems :: rest) := by
      simp [PyVal.idsList, PyVal.ids]
    have hmem2 : i ∈ seen2 := (hagree i hi).mp hmem
    rw [runFingerprint_skip _ _ _ _ (by simpa [PyVal.objId] using hmem),
      runFingerprint_skip _ _ _ _ (by simpa [PyVal.objId] using hmem2)]
    exact ih seen2 fun a ha =>
      hagree a (by simp [PyVal.idsList]; exact Or.inr ha)
  | case7 i elems rest seen acc hmem ih =>
    intro seen2 hagree
    have hi : i ∈ PyVal.idsList (PyVal.setV i elems :: rest) := by
      simp [PyVal.idsList, PyVal.ids]
    have hmem2 : i ∉ seen2 := fun hc => hmem ((hagree i hi).mpr hc)
    simp only [runFingerprint, if_neg hmem, if_neg hmem2]
    refine ih (i :: seen2) fun a ha => ?_
    have ha' : a ∈ PyVal.idsList (PyVal.setV i elems :: rest) := by
      rw [idsList_append] at ha
      rcases List.mem_append.mp ha with h1 | h2
      · have h1' := (mem_idsList_reverse a _).mp h1
        rw [idsList_map_intV] at h1'
        have hmf : a ∈ elems.map Prod.fst :=
          ((sortSetElems_perm elems).map Prod.fst).mem_iff.mp h1'
        simp only [PyVal.idsList, PyVal.ids]
        exact List.mem_append.mpr (Or.inl (List.mem_cons_of_mem i hmf))
      · simp only [PyVal.idsList, PyVal.ids]
        exact List.mem_append.mpr (Or.inr h2)
    have := hagree a ha'
    simp [List.mem_cons, this]
  | case8 i rest seen acc hmem ih =>
    intro seen2 hagree
    have hi : i ∈ PyVal.idsList (PyVal.objV i :: rest) := by
      simp [PyVal.idsList, PyVal.ids]
    have hmem2 : i ∈ seen2 := (hagree i hi).mp hmem
    rw [runFingerprint_skip _ _ _ _ (by simpa [PyVal.objId] using hmem),
      runFingerprint_skip _ _ _ _ (by simpa [PyVal.objId] using hmem2)]
    exact ih seen2 fun a ha =>
      hagree a (by simp [PyVal.idsList]; exact Or.inr ha)
  | case9 i rest seen acc hmem ih =>
    intro seen2 hagree
    have hi : i ∈ PyVal.idsList (PyVal.objV i :: rest) := by
      simp [PyVal.idsList, PyVal.ids]
    have hmem2 : i ∉ seen2 := fun hc => hmem ((hagree i hi).mpr hc)
    simp only [runFingerprint, if_neg hmem, if_neg hmem2]
    refine ih (i :: seen2) fun a ha => ?_
    have := hagree a (by simp [PyVal.idsList]; exact Or.inr ha)
    simp [List.mem_cons, this]

/-- A worklist of bare `int` nodes with fresh, pairwise distinct ids emits
exactly the hashes of the carried values, in worklist order. -/
theorem runFingerprint_ints (ps : List (ℕ × ℤ)) (seen : List ℕ) (acc : List ℤ)
    (hdisj : ∀ p ∈ ps, p.1 ∉ seen) (hnodup : (ps.map Prod.fst).Nodup) :
    (runFingerprint (ps.map (fun p => PyVal.intV p.1 p.2)) seen acc).1
      = acc ++ ps.map (fun p => pyHashInt p.2) := by
  induction ps generalizing seen acc with
  | nil => simp [runFingerprint]
  | cons p ps ih =>
    have hp : p.1 ∉ seen := hdisj p (List.mem_cons_self p ps)
    rw [List.map_cons, List.nodup_cons] at hnodup
    have hnotin : p.1 ∉ ps.map Prod.fst := hnodup.1
    have hdisj' : ∀ q ∈ ps, q.1 ∉ p.1 :: seen := by
      intro q hq
      simp only [List.mem_cons, not_or]
      constructor
      · intro he
        exact hnotin (he ▸ List.mem_map_of_mem Prod.fst hq)
      · exact hdisj q (List.mem_cons_of_mem p hq)
    have hnodup' : (ps.map Prod.fst).Nodup := hnodup.2
    simp only [List.map_cons, runFingerprint, if_neg hp]
    rw [ih (p.1 :: seen) (acc ++ [pyHashInt p.2]) hdisj' hnodup']
    simp

/-- The digest stream of a set node with well-formed ids: the hashes of the
element values in descending value order (the ascending sort is pushed onto
the worklist and then popped from the top). -/
theorem setV_digest (i : ℕ) (elems : List (ℕ × ℤ))
    (hids : (i :: elems.map Prod.fst).Nodup) :
    process_isolated_fingerprint (PyVal.setV i elems)
      = ((sortSetElems elems).map (fun p => pyHashInt p.2)).reverse := by
  have hni : i ∉ ([] : List ℕ) := by simp
  have hidsElems : (elems.map Prod.fst).Nodup := (List.nodup_cons.mp hids).2
  have hiElems : i ∉ elems.map Prod.fst := (List.nodup_cons.mp hids).1
  have hsortedIds : ((sortSetElems elems).map Prod.fst).Nodup :=
    (((sortSetElems_perm elems).map Prod.fst).nodup_iff).mpr hidsElems
  have hrevIds : (((sortSetElems elems).reverse).map Prod.fst).Nodup := by
    rw [List.map_reverse]
    exact List.nodup_reverse.mpr hsortedIds
  have hdisj : ∀ p ∈ (sortSetElems elems).reverse, p.1 ∉ [i] := by
    intro p hp
    have hp' : p ∈ elems :=
      (sortSetElems_perm elems).mem_iff.mp (List.mem_reverse.mp hp)
    have : p.1 ∈ elems.map Prod.fst := List.mem_map_of_mem Prod.fst hp'
    simp only [List.mem_singleton]
    intro he
    exact hiElems (he ▸ this)
  rw [process_isolated_fingerprint]
  simp only [runFingerprint, if_neg hni, List.append_nil]
  rw [← List.map_reverse]
  rw [runFingerprint_ints ((sortSetElems elems).reverse) [i] [] hdisj hrevIds]
  simp [List.map_reverse]

end Fingerprint

/-- Claim C8: in isolated fingerprint mode, ordered sequences are
order-sensitive — the lists `[1, 2, 3]` and `[3, 2, 1]` (differing only in
element order) feed different block streams to the hash — while two set
objects holding equal, mutually comparable elements fingerprint identically
regardless of iteration order (elements are pushed in sorted order). -/
theorem C8_order_rules :
    (Fingerprint.process_isolated_fingerprint
        (.listV 0 [.intV 1 1, .intV 2 2, .intV 3 3])
      ≠ Fingerprint.process_isolated_fingerprint
        (.listV 0 [.intV 3 3, .intV 2 2, .intV 1 1])) ∧
    (∀ (i j : ℕ) (e1 e2 : List (ℕ × ℤ)),
      (i :: e1.map Prod.fst).Nodup → (j :: e2.map Prod.fst).Nodup →
      (e1.map Prod.snd).Perm (e2.map Prod.snd) →
      Fingerprint.process_isolated_fingerprint (.setV i e1)
        = Fingerprint.process_isolated_fingerprint (.setV j e2)) := by
  constructor
  · have h1 : Fingerprint.process_isolated_fingerprint
        (.listV 0 [.intV 1 1, .intV 2 2, .intV 3 3]) = [3, 2, 1] := by
      simp [Fingerprint.process_isolated_fingerprint, Fingerprint.runFingerprint,
        Fingerprint.pyHashInt, Fingerprint.pyHashModulus]
    have h2 : Fingerprint.process_isolated_fingerprint
        (.listV 0 [.intV 3 3, .intV 2 2, .intV 1 1]) = [1, 2, 3] := by
      simp [Fingerprint.process_isolated_fingerprint, Fingerprint.runFingerprint,
        Fingerprint.pyHashInt, Fingerprint.pyHashModulus]
    rw [h1, h2]
    decide
  · intro i j e1 e2 h1 h2 hperm
    rw [Fingerprint.setV_digest i e1 h1, Fingerprint.setV_digest j e2 h2]
    have hs1 : List.Sorted (fun a b : ℤ => a ≤ b)
        ((Fingerprint.sortSetElems e1).map Prod.snd) :=
      List.pairwise_map.mpr (List.sorted_insertionSort Fingerprint.leVal e1)
    have hs2 : List.Sorted (fun a b : ℤ => a ≤ b)
        ((Fingerprint.sortSetElems e2).map Prod.snd) :=
      List.pairwise_map.mpr (List.sorted_insertionSort Fingerprint.leVal e2)
    have hpp : ((Fingerprint.sortSetElems e1).map Prod.snd).Perm
        ((Fingerprint.sortSetElems e2).map Prod.snd) :=
      (((Fingerprint.sortSetElems_perm e1).map Prod.snd).trans hperm).trans
        ((Fingerprint.sortSetElems_perm e2).map Prod.snd).symm
    have hvals : (Fingerprint.sortSetElems e1).map Prod.snd
        = (Fingerprint.sortSetElems e2).map Prod.snd :=
      List.eq_of_perm_of_sorted hpp hs1 hs2
    have hh : (Fingerprint.sortSetElems e1).map (fun p => Fingerprint.pyHashInt p.2)
        = (Fingerprint.sortSetElems e2).map (fun p => Fingerprint.pyHashInt p.2) := by
      have := congrArg (List.map Fingerprint.pyHashInt) hvals
      simpa [List.map_map, Function.comp] using this
    rw [hh]

/-- Concrete instance of `C8_order_rules`: the two-element sets iterated as
`[(id 1, 1), (id 2, 2)]` and `[(id 7, 2), (id 8, 1)]` fingerprint identically. -/
theorem C8_order_rules_witness :
    Fingerprint.process_isolated_fingerprint (.setV 0 [(1, 1), (2, 2)])
      = Fingerprint.process_isolated_fingerprint (.setV 5 [(7, 2), (8, 1)]) :=
  C8_order_rules.2 0 5 [(1, 1), (2, 2)] [(7, 2), (8, 1)] (by decide) (by decide)
    (by decide)

/-- Claim C10: the isolated fingerprinter skips any object whose identity was
already visited, so repeated references to one object contribute to the digest
only once: for every object `x`, the two argument lists `[x, x]` and `[x]`
(fresh list objects, sharing the one live object `x`) feed identical block
streams to the hash and therefore share one cache entry. -/
theorem C10_identity_dedup (x : Fingerprint.PyVal) (i j : ℕ)
    (hi : i ∉ x.ids) (hj : j ∉ x.ids) :
    Fingerprint.process_isolated_fingerprint (.listV i [x, x])
      = Fingerprint.process_isolated_fingerprint (.listV j [x]) := by
  have e1 : Fingerprint.runFingerprint [Fingerprint.PyVal.listV i [x, x]] [] []
      = Fingerprint.runFingerprint ([x] ++ [x]) [i] [] := by
    simp [Fingerprint.runFingerprint]
  have e2 : Fingerprint.runFingerprint [Fingerprint.PyVal.listV j [x]] [] []
      = Fingerprint.runFingerprint [x] [j] [] := by
    simp [Fingerprint.runFingerprint]
  rw [Fingerprint.process_isolated_fingerprint,
    Fingerprint.process_isolated_fingerprint, e1, e2,
    Fingerprint.runFingerprint_append [x] [x] [i] [],
    Fingerprint.runFingerprint_skip x [] _ _
      (Fingerprint.runFingerprint_head_seen x [] [i] [])]
  simp only [Fingerprint.runFingerprint]
  apply Fingerprint.runFingerprint_acc_congr
  intro b hb
  have hbx : b ∈ x.ids := by
    simpa [Fingerprint.PyVal.idsList] using hb
  simp only [List.mem_singleton]
  constructor
  · intro he
    exact absurd (he ▸ hbx) hi
  · intro he
    exact absurd (he ▸ hbx) hj

/-- Concrete instance of `C10_identity_dedup`: `[x, x]` and `[x]` for the int
object `x = 5` (id 1) fingerprint identically. -/
theorem C10_identity_dedup_witness :
    Fingerprint.process_isolated_fingerprint (.listV 0 [.intV 1 5, .intV 1 5])
      = Fingerprint.process_isolated_fingerprint (.listV 2 [.intV 1 5]) :=
  C10_identity_dedup (.intV 1 5) 0 2 (by simp [Fingerprint.PyVal.ids])
    (by simp [Fingerprint.PyVal.ids])

end Caching
